import Mathlib

/-!
# Verification of the cclv view-state layout engine

A shallow embedding of the view-state layout, virtualization and rendering
engine of the `cclv` terminal transcript viewer, together with proofs of the
specification's testable properties.

Modelling conventions:
* Rust `usize`/`u16` quantities (heights, offsets, widths, indices) are `Nat`;
  `saturating_sub` is `Nat` subtraction (which truncates at 0).
* A rendered display line is a `String`; only its presence and length matter
  for the layout claims.
* The per-entry layout index (cumulative y offset and height) is carried next
  to each entry view, mirroring the cumulative-height index that
  `ConversationViewState` maintains.
-/

set_option maxRecDepth 4000

namespace Cclv

/-- Wrap mode: split long lines to the width, or keep them as single
overflowing lines (from `state::app_state::WrapMode` as used throughout). -/
inductive WrapMode
  | Wrap
  | NoWrap
deriving DecidableEq

/-- Global layout parameters recorded after each full relayout.
Modelled from the spec: `view_state/layout_params.rs` is absent from the
sources; the spec describes LayoutParams as (viewport width, effective global
wrap mode). -/
structure LayoutParams where
  width : Nat
  globalWrap : WrapMode
deriving DecidableEq

/-- A malformed conversation entry: only a source line number and an error
message, no identifier (from `model::MalformedEntry` usage; the model module
is absent from the sources, shape taken from the spec's data model). -/
structure MalformedEntry where
  lineNumber : Nat
  errorMessage : String
deriving DecidableEq

/-- One content block of a valid entry.  The renderer treats every block kind
with one entry-wide policy, so each kind just carries its logical (unwrapped)
lines of text.  Modelled from the spec: the `model` module with
`ContentBlock` is absent from the sources. -/
inductive ContentBlock
  | text (lines : List String)
  | thinking (lines : List String)
  | toolUse (lines : List String)
  | toolResult (lines : List String)
deriving DecidableEq

/-- The logical lines a content block renders to. -/
def ContentBlock.blockLines : ContentBlock → List String
  | .text ls => ls
  | .thinking ls => ls
  | .toolUse ls => ls
  | .toolResult ls => ls

/-- A conversation entry: Valid (stable identifier plus content blocks) or
Malformed.  Modelled from the spec's data model; the `model` module is absent
from the sources. -/
inductive ConversationEntry
  | Malformed (m : MalformedEntry)
  | Valid (uuid : String) (blocks : List ContentBlock)
deriving DecidableEq

/-- Usable content width inside the viewport: the renderer tests fix it as
`width - 2` (a 100-char line at width 40 wraps at 38 columns). -/
def contentWidth (width : Nat) : Nat := width - 2

/-- Chunking worker with explicit fuel (the fuel is the list length, so it
never runs out); splits a line's characters into pieces of at most `cw`
characters.  `cw = 0` (degenerate width) keeps the line whole. -/
def chunkGo (cw : Nat) : Nat → List Char → List (List Char)
  | 0, l => [l]
  | fuel + 1, l =>
    if l.length ≤ cw ∨ cw = 0 then [l]
    else l.take cw :: chunkGo cw fuel (l.drop cw)

/-- Split one candidate line into physical lines of at most `cw` characters.
Modelled from the spec: in wrap mode any candidate line longer than the usable
content width is split into `ceil(length / content_width)` physical lines. -/
def chunkLine (cw : Nat) (l : List Char) : List (List Char) :=
  chunkGo cw l.length l

/-- Wrap a candidate line (as a string) into physical lines. -/
def wrapString (cw : Nat) (s : String) : List String :=
  (chunkLine cw s.data).map String.mk

/-- Ceiling division on `Nat`: `ceilDivNat a b = ⌈a / b⌉` for `b > 0`. -/
def ceilDivNat (a b : Nat) : Nat := (a + b - 1) / b

/-- The candidate line sequence of a valid entry's blocks: every block rendered
with the single entry-wide policy; in wrap mode each logical line is split
against the usable content width BEFORE any collapse decision.  Modelled from
the spec (`compute_entry_lines` is a `todo!()` stub in
`view_state/renderer.rs`). -/
def candidate_lines (blocks : List ContentBlock) (wrap : WrapMode) (width : Nat) :
    List String :=
  let logical := blocks.flatMap ContentBlock.blockLines
  match wrap with
  | .Wrap => logical.flatMap (wrapString (contentWidth width))
  | .NoWrap => logical

/-- The collapse indicator line `"(+N more lines)"`. -/
def indicatorLine (n : Nat) : String := "(+" ++ toString n ++ " more lines)"

/-- The blank separator line ending every rendered entry. -/
def separatorLine : String := ""

/-- Modelled from the spec: `compute_entry_lines` in `view_state/renderer.rs`
is a `todo!()` stub; behaviour taken from the spec and `renderer_tests.rs`.
Malformed entries render exactly one line (the separator).  Valid entries
compute the full candidate line count first; if not expanded and the count
exceeds `collapse_threshold`, emit the first `summary_lines` lines, one
`"(+N more lines)"` indicator with `N = candidates - summary_lines`, and the
separator; otherwise every candidate line plus the separator. -/
def compute_entry_lines (entry : ConversationEntry) (expanded : Bool)
    (wrap : WrapMode) (width collapse_threshold summary_lines : Nat) :
    List String :=
  match entry with
  | .Malformed _ => [separatorLine]
  | .Valid _ blocks =>
    let cand := candidate_lines blocks wrap width
    if expanded = false ∧ collapse_threshold < cand.length then
      cand.take summary_lines ++
        [indicatorLine (cand.length - summary_lines), separatorLine]
    else
      cand ++ [separatorLine]

/-- An entry view: owns its domain entry, its index, its precomputed rendered
lines (the source of truth for height), the expanded flag and the per-entry
wrap override (struct from `view_state/entry_view.rs`). -/
structure EntryView where
  entry : ConversationEntry
  index : Nat
  rendered_lines : List String
  expanded : Bool
  wrap_override : Option WrapMode
deriving DecidableEq

/-- Default collapse threshold (`EntryView::COLLAPSE_THRESHOLD`). -/
def COLLAPSE_THRESHOLD : Nat := 10

/-- Default summary line count (`EntryView::SUMMARY_LINES`). -/
def SUMMARY_LINES : Nat := 3

/-- Constructor `EntryView::new`: minimal state with one placeholder rendered line
(`vec![Line::from("")]`), collapsed, no wrap override (implemented in
`view_state/entry_view.rs`). -/
def EntryView.new (entry : ConversationEntry) (index : Nat) : EntryView :=
  ⟨entry, index, [separatorLine], false, none⟩

/-- Accessor `EntryView::effective_wrap`: the override if set, else the global wrap
mode (implemented in `view_state/entry_view.rs`). -/
def EntryView.effective_wrap (v : EntryView) (global : WrapMode) : WrapMode :=
  v.wrap_override.getD global

/-- Modelled from the spec: `EntryView::recompute_lines` is a `todo!()` stub;
the spec says it invokes the renderer with the entry's current
expanded/override state and atomically replaces the rendered lines, using the
default thresholds 10/3. -/
def EntryView.recompute_lines (v : EntryView) (wrap_mode : WrapMode)
    (width : Nat) : EntryView :=
  { v with
    rendered_lines :=
      compute_entry_lines v.entry v.expanded (v.effective_wrap wrap_mode)
        width COLLAPSE_THRESHOLD SUMMARY_LINES }

/-- Modelled from the spec: `EntryView::with_rendered_lines` is a `todo!()`
stub; it constructs the view collapsed with no override and immediately
computes the rendered lines. -/
def EntryView.with_rendered_lines (entry : ConversationEntry) (index : Nat)
    (wrap_mode : WrapMode) (width : Nat) : EntryView :=
  (EntryView.new entry index).recompute_lines wrap_mode width

/-- Modelled from the spec: `EntryView::height` is a `todo!()` stub; the
rendered-line sequence is the source of truth, so the height is its length. -/
def EntryView.height (v : EntryView) : Nat := v.rendered_lines.length

/-- Mutator `EntryView::set_expanded` (implemented in `view_state/entry_view.rs`). -/
def EntryView.set_expanded (v : EntryView) (e : Bool) : EntryView :=
  { v with expanded := e }

/-- Mutator `EntryView::toggle_expanded`: flips the flag and returns the new value
(implemented in `view_state/entry_view.rs`). -/
def EntryView.toggle_expanded (v : EntryView) : Bool × EntryView :=
  (!v.expanded, { v with expanded := !v.expanded })

/-- Mutator `EntryView::set_wrap_override` (implemented in
`view_state/entry_view.rs`). -/
def EntryView.set_wrap_override_m (v : EntryView) (m : Option WrapMode) :
    EntryView :=
  { v with wrap_override := m }

/-- A scroll anchor.  Modelled from the spec: `view_state/scroll.rs` is absent
from the sources; the variants are those used by `state/scroll_handler.rs` and
`state/match_navigation_handler.rs`. -/
inductive ScrollPosition
  | Top
  | Bottom
  | AtLine (offset : Nat)
  | AtEntry (entry_index : Nat) (line_in_entry : Nat)
deriving DecidableEq

/-- Modelled from the spec: `ScrollPosition::resolve` lives in the absent
`view_state/scroll.rs`.  Spec: `Top → 0`; `Bottom → max(0, total − viewport)`;
`AtLine(o) → clamp(o, 0, max(0, total − viewport))`; `AtEntry → cumulative_y +
line_in_entry`, then the same clamp.  On `Nat`, `max (0, total − viewport)` is
`total - viewport` and the clamp is `min`. -/
def ScrollPosition.resolve (sp : ScrollPosition)
    (total_height viewport_height : Nat) (cumulative_y : Nat → Nat) : Nat :=
  let maxScroll := total_height - viewport_height
  match sp with
  | .Top => 0
  | .Bottom => maxScroll
  | .AtLine off => min off maxScroll
  | .AtEntry i l => min (cumulative_y i + l) maxScroll

/-- One entry of the conversation's layout index: the entry view together with
its cumulative y offset and its recorded height. -/
structure LaidEntry where
  view : EntryView
  cumY : Nat
  height : Nat
deriving DecidableEq

/-- Viewport dimensions (`view_state/types.rs` is absent; shape from its uses:
`ViewportDimensions::new(width, height)`). -/
structure ViewportDimensions where
  width : Nat
  height : Nat
deriving DecidableEq

/-- The `visible_range` query result: `{start_index, end_index (exclusive),
scroll_offset}` (spec data model; `view_state/visible_range.rs` is absent). -/
structure VisibleRange where
  start_index : Nat
  end_index : Nat
  scroll_offset : Nat
deriving DecidableEq

/-- Hit-test result (from `view_state/hit_test.rs`, implemented in the
sources): `Miss`, or `Hit` with entry index, line within the entry and the
column passed through unchecked. -/
inductive HitTestResult
  | Miss
  | Hit (entry_index : Nat) (line_in_entry : Nat) (column : Nat)
deriving DecidableEq

/-- View-state for a single conversation (struct from
`view_state/conversation.rs`): the laid-out entries, the scroll position, the
cached total height, the focused entry and the last layout parameters. -/
structure ConversationViewState where
  entries : List LaidEntry
  scroll : ScrollPosition
  total_height : Nat
  focused_message : Option Nat
  last_layout_params : Option LayoutParams
deriving DecidableEq

/-- The height-calculator abstraction passed to the layout operations:
`Fn(&ConversationEntry, bool, WrapMode) -> LineHeight`. -/
abbrev HeightFn := ConversationEntry → Bool → WrapMode → Nat

/-- Wrap a list of freshly ingested entries into un-laid-out entry views with
consecutive indices, placeholder layout (offset 0, height of the placeholder
line). -/
def mkLaidEntries : List ConversationEntry → Nat → List LaidEntry
  | [], _ => []
  | e :: rest, i =>
    ⟨EntryView.new e i, 0, (EntryView.new e i).height⟩ :: mkLaidEntries rest (i + 1)

/-- Modelled from the spec: `ConversationViewState::new` is a `todo!()` stub;
it builds entry views in a minimal un-laid-out state, scrolled to top, with no
focus and no recorded layout parameters, total height 0. -/
def ConversationViewState.new (es : List ConversationEntry) :
    ConversationViewState :=
  ⟨mkLaidEntries es 0, .Top, 0, none, none⟩

/-- Modelled from the spec: `ConversationViewState::empty` is a `todo!()`
stub. -/
def ConversationViewState.emptyState : ConversationViewState :=
  ⟨[], .Top, 0, none, none⟩

/-- The height the calculator assigns to an entry view under the given global
parameters (entry, expanded state, effective wrap mode). -/
def entryHeight (hf : HeightFn) (params : LayoutParams) (v : EntryView) : Nat :=
  hf v.entry v.expanded (v.effective_wrap params.globalWrap)

/-- Lay out a suffix of entries starting at base offset `base`: assign each
entry its cumulative y as the running sum of recomputed heights; also return
the offset one past the last entry. -/
def layoutFrom (hf : HeightFn) (params : LayoutParams) (base : Nat) :
    List LaidEntry → List LaidEntry × Nat
  | [] => ([], base)
  | le :: rest =>
    let h := entryHeight hf params le.view
    let (rest', total) := layoutFrom hf params (base + h) rest
    (⟨le.view, base, h⟩ :: rest', total)

/-- Modelled from the spec: `ConversationViewState::recompute_layout` is a
`todo!()` stub; full rebuild recomputing every cumulative offset and the total
height, recording the layout parameters. -/
def ConversationViewState.recompute_layout (s : ConversationViewState)
    (params : LayoutParams) (hf : HeightFn) : ConversationViewState :=
  let (es, total) := layoutFrom hf params 0 s.entries
  { s with entries := es, total_height := total,
           last_layout_params := some params }

/-- The offset one past the end of an already-laid prefix: 0 when empty, else
the last entry's `cumY + height`. -/
def prefixEnd (pre : List LaidEntry) : Nat :=
  match pre.getLast? with
  | none => 0
  | some le => le.cumY + le.height

/-- Modelled from the spec: `ConversationViewState::relayout_from` is a
`todo!()` stub; rewrites cumulative offsets for `from_index` and every later
entry only, leaving earlier entries untouched, and updates the total
height. -/
def ConversationViewState.relayout_from (s : ConversationViewState)
    (from_index : Nat) (params : LayoutParams) (hf : HeightFn) :
    ConversationViewState :=
  let pre := s.entries.take from_index
  let suf := s.entries.drop from_index
  let (suf', total) := layoutFrom hf params (prefixEnd pre) suf
  { s with entries := pre ++ suf', total_height := total }

/-- Modelled from the spec: `ConversationViewState::toggle_expand` is a
`todo!()` stub; out-of-bounds index returns `none` leaving the state
unchanged; otherwise flip the entry's expanded flag, recompute its lines, and
relayout from that index, as one inseparable operation, returning the new
expanded state. -/
def ConversationViewState.toggle_expand (s : ConversationViewState)
    (index : Nat) (params : LayoutParams) (hf : HeightFn) :
    Option Bool × ConversationViewState :=
  match s.entries[index]? with
  | none => (none, s)
  | some le =>
    let v := { le.view with expanded := !le.view.expanded }
    let v := v.recompute_lines params.globalWrap params.width
    let s' := { s with entries := s.entries.set index ⟨v, le.cumY, le.height⟩ }
    (some v.expanded, s'.relayout_from index params hf)

/-- Modelled from the spec: `ConversationViewState::set_wrap_override` is a
`todo!()` stub; same shape as `toggle_expand`, returning the previous
override. -/
def ConversationViewState.set_wrap_override (s : ConversationViewState)
    (index : Nat) (wrap : Option WrapMode) (params : LayoutParams)
    (hf : HeightFn) : Option (Option WrapMode) × ConversationViewState :=
  match s.entries[index]? with
  | none => (none, s)
  | some le =>
    let v := { le.view with wrap_override := wrap }
    let v := v.recompute_lines params.globalWrap params.width
    let s' := { s with entries := s.entries.set index ⟨v, le.cumY, le.height⟩ }
    (some le.view.wrap_override, s'.relayout_from index params hf)

/-- Modelled from the spec: `ConversationViewState::append` is a `todo!()`
stub; grows the sequence at the tail with default layout and invalidates the
recorded layout parameters. -/
def ConversationViewState.append (s : ConversationViewState)
    (es : List ConversationEntry) : ConversationViewState :=
  { s with entries := s.entries ++ mkLaidEntries es s.entries.length,
           last_layout_params := none }

/-- Lookup `ConversationViewState::entry_cumulative_y` (a `todo!()` stub, shape from
its signature): the cumulative offset of the entry at `index`, if any. -/
def ConversationViewState.entry_cumulative_y (s : ConversationViewState)
    (i : Nat) : Option Nat :=
  (s.entries[i]?).map (·.cumY)

/-- Total cumulative-y lookup used when resolving the scroll position:
defaults to 0 for out-of-range indices. -/
def cumLookup (s : ConversationViewState) (i : Nat) : Nat :=
  ((s.entries[i]?).map (·.cumY)).getD 0

/-- Index of the first entry satisfying `p` (the list length when none does):
the sequential specification of the binary search over the monotone
cumulative-offset array. -/
def firstIdx (p : LaidEntry → Bool) : List LaidEntry → Nat
  | [] => 0
  | le :: rest => if p le then 0 else firstIdx p rest + 1

/-- An entry's interval `[cumY, cumY + height)` ends after the viewport top:
the predicate located by the lower binary search. -/
def startPred (off : Nat) (le : LaidEntry) : Bool :=
  decide (off < le.cumY + le.height)

/-- An entry's interval starts at or after the viewport bottom: the predicate
located by the upper binary search. -/
def stopPred (off vh : Nat) (le : LaidEntry) : Bool :=
  decide (off + vh ≤ le.cumY)

/-- Modelled from the spec: `ConversationViewState::visible_range` is a
`todo!()` stub; resolve the scroll position, then return the first and
one-past-last entry whose `[cumulative_y, cumulative_y + height)` interval
intersects `[scroll_offset, scroll_offset + viewport_height)`. -/
def ConversationViewState.visible_range (s : ConversationViewState)
    (vp : ViewportDimensions) : VisibleRange :=
  let off := s.scroll.resolve s.total_height vp.height (cumLookup s)
  ⟨firstIdx (startPred off) s.entries,
    firstIdx (stopPred off vp.height) s.entries, off⟩

/-- Find the entry (with its index, counting from `i`) whose layout interval
contains the absolute line `y`. -/
def findEntryAt (y : Nat) : Nat → List LaidEntry → Option (Nat × LaidEntry)
  | _, [] => none
  | i, le :: rest =>
    if le.cumY ≤ y ∧ y < le.cumY + le.height then some (i, le)
    else findEntryAt y (i + 1) rest

/-- Modelled from the spec: `ConversationViewState::hit_test` is a `todo!()`
stub; search on `absolute_y = scroll_offset + screen_y`, returning
`Hit{entry_index, line_in_entry = absolute_y − cumulative_y, column =
screen_x}`, or `Miss` beyond the total height. -/
def ConversationViewState.hit_test (s : ConversationViewState)
    (screen_y screen_x scroll_offset : Nat) : HitTestResult :=
  let y := scroll_offset + screen_y
  if s.total_height ≤ y then .Miss
  else
    match findEntryAt y 0 s.entries with
    | some (i, le) => .Hit i (y - le.cumY) screen_x
    | none => .Miss

/-- The keyboard actions the vertical scroll handler distinguishes
(`model::KeyAction` variants matched in `state/scroll_handler.rs`); all
remaining actions are collapsed into `OtherAction`, for which the handler
leaves the state untouched. -/
inductive KeyAction
  | ScrollUp
  | ScrollDown
  | PageUp
  | PageDown
  | ScrollToTop
  | ScrollToBottom
  | OtherAction
deriving DecidableEq

/-- The new scroll position `handle_scroll_action` computes for the selected
conversation (embedded from the `match action` on the current scroll position
in `state/scroll_handler.rs`, lines 55-134).  `none` models the `_ => return
state` arm (no scroll mutation).  Rust's `saturating_sub` is `Nat`
subtraction; `saturating_add` on `usize` is addition. -/
def scroll_step (action : KeyAction) (cur : ScrollPosition)
    (total_height viewport_height : Nat) (cum : Nat → Nat) :
    Option ScrollPosition :=
  match action with
  | .ScrollUp =>
    some (match cur with
      | .AtLine off => .AtLine (off - 1)
      | .Top => .Top
      | c => .AtLine (c.resolve total_height viewport_height cum - 1))
  | .ScrollDown =>
    some (match cur with
      | .AtLine off => .AtLine (off + 1)
      | .Bottom => .Bottom
      | c => .AtLine (c.resolve total_height viewport_height cum + 1))
  | .PageUp =>
    some (match cur with
      | .AtLine off => .AtLine (off - viewport_height)
      | .Top => .Top
      | c => .AtLine (c.resolve total_height viewport_height cum - viewport_height))
  | .PageDown =>
    some (match cur with
      | .AtLine off => .AtLine (off + viewport_height)
      | .Bottom => .Bottom
      | c => .AtLine (c.resolve total_height viewport_height cum + viewport_height))
  | .ScrollToTop => some .Top
  | .ScrollToBottom => some .Bottom
  | .OtherAction => none

/-- The cumulative-offset chain is coherent starting at offset `off`: each
entry's `cumY` is the running sum of the heights before it. -/
def cumOkB (off : Nat) : List LaidEntry → Bool
  | [] => true
  | le :: rest => (le.cumY == off) && cumOkB (off + le.height) rest

/-- The offset one past the last entry when laying the list out from `off`. -/
def endOff (off : Nat) : List LaidEntry → Nat
  | [] => off
  | le :: rest => endOff (off + le.height) rest

/-- A conversation state is laid out: the cumulative chain starts at 0 and the
cached total height is the end offset. -/
def LayoutOk (s : ConversationViewState) : Prop :=
  cumOkB 0 s.entries = true ∧ s.total_height = endOff 0 s.entries

instance (s : ConversationViewState) : Decidable (LayoutOk s) :=
  inferInstanceAs
    (Decidable (cumOkB 0 s.entries = true ∧ s.total_height = endOff 0 s.entries))

/-- Every recorded entry height is positive (the `LineHeight` invariant:
a validated positive integer, minimum 1). -/
def HeightsPos (s : ConversationViewState) : Prop :=
  ∀ le ∈ s.entries, 1 ≤ le.height

instance (s : ConversationViewState) : Decidable (HeightsPos s) :=
  inferInstanceAs (Decidable (∀ le ∈ s.entries, 1 ≤ le.height))

/-- Sum of the recorded heights of a list of entries. -/
def sumH (l : List LaidEntry) : Nat := (l.map (·.height)).sum

/-- The cumulative-offset invariant exactly as the spec states it:
`cumulative_y(0) = 0`, `cumulative_y(i+1) = cumulative_y(i) + height(i)`, and
`total_height` is the last entry's `cumulative_y + height` (0 when empty). -/
def CumInvariant (s : ConversationViewState) : Prop :=
  (∀ le, s.entries[0]? = some le → le.cumY = 0) ∧
  (∀ i le le', s.entries[i]? = some le → s.entries[i + 1]? = some le' →
    le'.cumY = le.cumY + le.height) ∧
  (match s.entries.getLast? with
   | none => s.total_height = 0
   | some le => s.total_height = le.cumY + le.height)

/-- The conversation states reachable through the engine's public operations:
construction, full or partial relayout, the combined toggle/override
mutations, and streaming append. -/
inductive Reachable : ConversationViewState → Prop
  | new (es : List ConversationEntry) : Reachable (ConversationViewState.new es)
  | emptyState : Reachable ConversationViewState.emptyState
  | recompute {s : ConversationViewState} (params : LayoutParams)
      (hf : HeightFn) : Reachable s → Reachable (s.recompute_layout params hf)
  | relayout {s : ConversationViewState} (k : Nat) (params : LayoutParams)
      (hf : HeightFn) : Reachable s → Reachable (s.relayout_from k params hf)
  | toggle {s : ConversationViewState} (k : Nat) (params : LayoutParams)
      (hf : HeightFn) : Reachable s → Reachable (s.toggle_expand k params hf).2
  | setWrap {s : ConversationViewState} (k : Nat) (w : Option WrapMode)
      (params : LayoutParams) (hf : HeightFn) :
      Reachable s → Reachable (s.set_wrap_override k w params hf).2
  | append {s : ConversationViewState} (es : List ConversationEntry) :
      Reachable s → Reachable (s.append es)

/-- Every entry view's rendered-line sequence is nonempty. -/
def ViewsOk (s : ConversationViewState) : Prop :=
  ∀ le ∈ s.entries, 1 ≤ le.view.rendered_lines.length

/-! ## Concrete test fixtures (mirroring the repository's unit tests) -/

/-- A malformed example entry (line 42, "Parse error"), as in the tests. -/
def exMalformed : ConversationEntry := .Malformed ⟨42, "Parse error"⟩

/-- A valid example entry with one short text line, as in the tests. -/
def exValid (u : String) : ConversationEntry := .Valid u [.text ["Test message"]]

/-- A constant height calculator (the tests' fixed-height calculator). -/
def constHeight (n : Nat) : HeightFn := fun _ _ _ => n

/-- Example layout parameters: width 80, global wrap. -/
def exParams : LayoutParams := ⟨80, WrapMode.Wrap⟩

/-- Three entries laid out at constant height 10 (offsets 0, 10, 20). -/
def exState3 : ConversationViewState :=
  (ConversationViewState.new
    [exValid "uuid-1", exValid "uuid-2", exValid "uuid-3"]).recompute_layout
    exParams (constHeight 10)

/-- One entry laid out at height 10. -/
def exState1 : ConversationViewState :=
  (ConversationViewState.new [exValid "uuid-1"]).recompute_layout exParams
    (constHeight 10)

/-- The first laid entry of a freshly constructed singleton conversation. -/
def exLaid0 : LaidEntry :=
  ⟨EntryView.new exMalformed 0, 0, (EntryView.new exMalformed 0).height⟩

/-- A valid entry whose single thinking block has 100 short lines (the spec's
collapse scenario). -/
def exEntry100 : ConversationEntry :=
  .Valid "thinking-uuid" [.thinking (List.replicate 100 "ln")]

/-- A single 100-character line (the spec's wrapping scenario). -/
def exLongLine : String := String.mk (List.replicate 100 'x')

/-- A valid entry holding the single 100-character line. -/
def exEntryLong : ConversationEntry := .Valid "long" [.text [exLongLine]]

/-! ## Helper lemmas -/

theorem chunkGo_length {cw : Nat} (hcw : 0 < cw) :
    ∀ (fuel : Nat) (l : List Char), l.length ≤ fuel →
      (chunkGo cw fuel l).length = max 1 (ceilDivNat l.length cw) := by
  intro fuel
  induction fuel with
  | zero =>
    intro l hl
    have hnil : l.length = 0 := Nat.le_zero.mp hl
    have : ceilDivNat l.length cw = 0 := by
      simp only [hnil, ceilDivNat, Nat.zero_add]
      exact Nat.div_eq_of_lt (by omega)
    simp [chunkGo, this]
  | succ fuel ih =>
    intro l hl
    by_cases hle : l.length ≤ cw ∨ cw = 0
    · have hle' : l.length ≤ cw := by
        rcases hle with h | h
        · exact h
        · omega
      have hone : max 1 (ceilDivNat l.length cw) = 1 := by
        rcases Nat.eq_zero_or_pos l.length with h0 | h1
        · have : ceilDivNat l.length cw = 0 := by
            simp only [h0, ceilDivNat, Nat.zero_add]
            exact Nat.div_eq_of_lt (by omega)
          simp [this]
        · have : ceilDivNat l.length cw = 1 := by
            unfold ceilDivNat
            refine Nat.div_eq_of_lt_le (by omega) (by omega)
          simp [this]
      simp [chunkGo, hle, hone]
    · push_neg at hle
      obtain ⟨hgt', -⟩ := hle
      have hdrop : (l.drop cw).length ≤ fuel := by
        simp only [List.length_drop]; omega
      have hrec := ih (l.drop cw) hdrop
      have hne : ¬ (l.length ≤ cw ∨ cw = 0) := by omega
      have hlen : (chunkGo cw (fuel + 1) l).length =
          (chunkGo cw fuel (l.drop cw)).length + 1 := by
        simp [chunkGo, hne]
      have hdl : (l.drop cw).length = l.length - cw := by
        simp [List.length_drop]
      have hpos : 1 ≤ ceilDivNat (l.length - cw) cw := by
        unfold ceilDivNat
        rw [Nat.one_le_div_iff hcw]
        omega
      have hstep : ceilDivNat (l.length - cw) cw + 1 = ceilDivNat l.length cw := by
        unfold ceilDivNat
        have h1 : l.length - cw + cw - 1 = l.length - 1 := by omega
        have h2 : l.length + cw - 1 = (l.length - 1) + cw := by omega
        rw [h1, h2, Nat.add_div_right _ hcw]
      have hposn : 1 ≤ ceilDivNat l.length cw := by omega
      rw [hlen, hrec, hdl, Nat.max_eq_right hpos, Nat.max_eq_right hposn]
      omega

theorem chunkLine_length {cw : Nat} {l : List Char} (hcw : 0 < cw)
    (hlong : cw < l.length) :
    (chunkLine cw l).length = ceilDivNat l.length cw := by
  have h := chunkGo_length hcw l.length l (Nat.le_refl _)
  have hpos : 1 ≤ ceilDivNat l.length cw := by
    unfold ceilDivNat
    rw [Nat.one_le_div_iff hcw]
    omega
  rw [chunkLine, h, Nat.max_eq_right hpos]

theorem chunkLine_short {cw : Nat} {l : List Char} (hshort : l.length ≤ cw) :
    chunkLine cw l = [l] := by
  cases l with
  | nil => simp [chunkLine, chunkGo]
  | cons c cs =>
    unfold chunkLine chunkGo
    simp only [List.length_cons]
    split
    · rfl
    · rename_i h
      exact absurd (Or.inl hshort) h

theorem compute_entry_lines_length_pos (entry : ConversationEntry)
    (expanded : Bool) (wrap : WrapMode) (width t sl : Nat) :
    1 ≤ (compute_entry_lines entry expanded wrap width t sl).length := by
  cases entry with
  | Malformed m => simp [compute_entry_lines]
  | Valid u blocks =>
    simp only [compute_entry_lines]
    split <;> simp

theorem cumOkB_append (xs ys : List LaidEntry) (b : Nat) :
    cumOkB b (xs ++ ys) = (cumOkB b xs && cumOkB (endOff b xs) ys) := by
  induction xs generalizing b with
  | nil => simp [cumOkB, endOff]
  | cons le rest ih =>
    simp [cumOkB, endOff, ih, Bool.and_assoc]

theorem endOff_append (xs ys : List LaidEntry) (b : Nat) :
    endOff b (xs ++ ys) = endOff (endOff b xs) ys := by
  induction xs generalizing b with
  | nil => simp [endOff]
  | cons le rest ih => simp [endOff, ih]

theorem endOff_eq_sumH (l : List LaidEntry) (b : Nat) :
    endOff b l = b + sumH l := by
  induction l generalizing b with
  | nil => simp [endOff, sumH]
  | cons le rest ih =>
    simp [endOff, sumH, ih]
    omega

theorem sumH_take_mono (l : List LaidEntry) :
    ∀ i j, i ≤ j → sumH (l.take i) ≤ sumH (l.take j) := by
  induction l with
  | nil => intro i j _; simp
  | cons le rest ih =>
    intro i j hij
    cases i with
    | zero => simp [sumH]
    | succ i' =>
      cases j with
      | zero => omega
      | succ j' =>
        simp only [List.take_succ_cons, sumH, List.map_cons, List.sum_cons]
        have := ih i' j' (by omega)
        simp only [sumH] at this
        omega

theorem layoutFrom_views (hf : HeightFn) (p : LayoutParams) :
    ∀ (l : List LaidEntry) (b : Nat),
      ((layoutFrom hf p b l).1).map (·.view) = l.map (·.view) := by
  intro l
  induction l with
  | nil => intro b; simp [layoutFrom]
  | cons le rest ih => intro b; simp [layoutFrom, ih]

theorem layoutFrom_length (hf : HeightFn) (p : LayoutParams) :
    ∀ (l : List LaidEntry) (b : Nat),
      ((layoutFrom hf p b l).1).length = l.length := by
  intro l
  induction l with
  | nil => intro b; simp [layoutFrom]
  | cons le rest ih => intro b; simp [layoutFrom, ih]

theorem layoutFrom_cumOk (hf : HeightFn) (p : LayoutParams) :
    ∀ (l : List LaidEntry) (b : Nat),
      cumOkB b (layoutFrom hf p b l).1 = true := by
  intro l
  induction l with
  | nil => intro b; simp [layoutFrom, cumOkB]
  | cons le rest ih => intro b; simp [layoutFrom, cumOkB, ih]

theorem layoutFrom_snd (hf : HeightFn) (p : LayoutParams) :
    ∀ (l : List LaidEntry) (b : Nat),
      (layoutFrom hf p b l).2 = endOff b (layoutFrom hf p b l).1 := by
  intro l
  induction l with
  | nil => intro b; simp [layoutFrom, endOff]
  | cons le rest ih => intro b; simp [layoutFrom, endOff, ih]

theorem layoutFrom_append (hf : HeightFn) (p : LayoutParams) :
    ∀ (xs ys : List LaidEntry) (b : Nat),
      layoutFrom hf p b (xs ++ ys) =
        ((layoutFrom hf p b xs).1 ++
            (layoutFrom hf p (layoutFrom hf p b xs).2 ys).1,
          (layoutFrom hf p (layoutFrom hf p b xs).2 ys).2) := by
  intro xs
  induction xs with
  | nil => intro ys b; simp [layoutFrom]
  | cons le rest ih => intro ys b; simp [layoutFrom, ih]

theorem layoutFrom_fixed (hf : HeightFn) (p : LayoutParams) :
    ∀ (l : List LaidEntry) (b : Nat), cumOkB b l = true →
      (∀ le ∈ l, le.height = entryHeight hf p le.view) →
      layoutFrom hf p b l = (l, endOff b l) := by
  intro l
  induction l with
  | nil => intro b _ _; simp [layoutFrom, endOff]
  | cons le rest ih =>
    intro b hok hh
    simp only [cumOkB, Bool.and_eq_true, beq_iff_eq] at hok
    obtain ⟨hcum, hrest⟩ := hok
    have hhead : le.height = entryHeight hf p le.view :=
      hh le (List.mem_cons_self le rest)
    have htail : ∀ x ∈ rest, x.height = entryHeight hf p x.view :=
      fun x hx => hh x (List.mem_cons_of_mem le hx)
    have := ih (b + entryHeight hf p le.view)
      (by rw [← hhead]; exact hrest) htail
    simp only [layoutFrom, this, endOff]
    rw [← hhead]
    subst hcum
    rfl

theorem prefixEnd_eq {l : List LaidEntry} (hok : cumOkB 0 l = true) :
    prefixEnd l = endOff 0 l := by
  suffices h : ∀ (l : List LaidEntry) (b : Nat), cumOkB b l = true → l ≠ [] →
      prefixEnd l = endOff b l by
    cases l with
    | nil => simp [prefixEnd, endOff]
    | cons le rest => exact h (le :: rest) 0 hok (by simp)
  intro l
  induction l with
  | nil => intro b _ hne; exact absurd rfl hne
  | cons le rest ih =>
    intro b hok _
    simp only [cumOkB, Bool.and_eq_true, beq_iff_eq] at hok
    obtain ⟨hcum, hrest⟩ := hok
    cases rest with
    | nil => simp [prefixEnd, endOff, hcum]
    | cons le' rest' =>
      have hrec := ih (b + le.height) hrest (by simp)
      have hpf : prefixEnd (le :: le' :: rest') = prefixEnd (le' :: rest') := by
        simp [prefixEnd, List.getLast?_cons_cons]
      rw [hpf, hrec]
      rfl

theorem recompute_layout_LayoutOk (s : ConversationViewState)
    (params : LayoutParams) (hf : HeightFn) :
    LayoutOk (s.recompute_layout params hf) := by
  constructor
  · simpa [ConversationViewState.recompute_layout] using
      layoutFrom_cumOk hf params s.entries 0
  · simpa [ConversationViewState.recompute_layout] using
      layoutFrom_snd hf params s.entries 0

theorem relayout_from_LayoutOk (s : ConversationViewState) (k : Nat)
    (params : LayoutParams) (hf : HeightFn) (h : LayoutOk s) :
    LayoutOk (s.relayout_from k params hf) := by
  obtain ⟨hok, htot⟩ := h
  have hsplit : s.entries = s.entries.take k ++ s.entries.drop k :=
    (List.take_append_drop k s.entries).symm
  have hok' : cumOkB 0 (s.entries.take k) = true ∧
      cumOkB (endOff 0 (s.entries.take k)) (s.entries.drop k) = true := by
    rw [hsplit, cumOkB_append, Bool.and_eq_true] at hok
    exact hok
  have hpre : prefixEnd (s.entries.take k) = endOff 0 (s.entries.take k) :=
    prefixEnd_eq hok'.1
  constructor
  · simp only [ConversationViewState.relayout_from, cumOkB_append,
      Bool.and_eq_true]
    refine ⟨hok'.1, ?_⟩
    have hcb := layoutFrom_cumOk hf params (s.entries.drop k)
      (prefixEnd (s.entries.take k))
    have hviews := layoutFrom_views hf params (s.entries.drop k)
      (prefixEnd (s.entries.take k))
    rw [hpre] at hcb ⊢
    -- the laid suffix starts exactly at the prefix end offset
    exact hcb
  · simp only [ConversationViewState.relayout_from]
    rw [endOff_append, ← hpre]
    exact layoutFrom_snd hf params (s.entries.drop k) (prefixEnd (s.entries.take k))

theorem cumOkB_set_view :
    ∀ (l : List LaidEntry) (i : Nat) (le : LaidEntry) (v : EntryView) (b : Nat),
      l[i]? = some le →
      cumOkB b (l.set i ⟨v, le.cumY, le.height⟩) = cumOkB b l := by
  intro l
  induction l with
  | nil => intro i le v b h; simp at h
  | cons hd rest ih =>
    intro i le v b h
    cases i with
    | zero =>
      simp only [List.getElem?_cons_zero, Option.some.injEq] at h
      subst h
      simp [List.set, cumOkB]
    | succ i' =>
      simp only [List.getElem?_cons_succ] at h
      simp only [List.set_cons_succ, cumOkB]
      rw [ih i' le v _ h]

theorem endOff_set_view :
    ∀ (l : List LaidEntry) (i : Nat) (le : LaidEntry) (v : EntryView) (b : Nat),
      l[i]? = some le →
      endOff b (l.set i ⟨v, le.cumY, le.height⟩) = endOff b l := by
  intro l
  induction l with
  | nil => intro i le v b h; simp at h
  | cons hd rest ih =>
    intro i le v b h
    cases i with
    | zero =>
      simp only [List.getElem?_cons_zero, Option.some.injEq] at h
      subst h
      simp [List.set, endOff]
    | succ i' =>
      simp only [List.getElem?_cons_succ] at h
      simp only [List.set_cons_succ, endOff]
      rw [ih i' le v _ h]

theorem cumOk_zero :
    ∀ (l : List LaidEntry) (b : Nat), cumOkB b l = true →
      ∀ le, l[0]? = some le → le.cumY = b := by
  intro l b hok le h
  cases l with
  | nil => simp at h
  | cons hd rest =>
    simp only [List.getElem?_cons_zero, Option.some.injEq] at h
    subst h
    simp only [cumOkB, Bool.and_eq_true, beq_iff_eq] at hok
    exact hok.1

theorem cumOk_succ :
    ∀ (l : List LaidEntry) (b : Nat), cumOkB b l = true →
      ∀ i le le', l[i]? = some le → l[i + 1]? = some le' →
        le'.cumY = le.cumY + le.height := by
  intro l
  induction l with
  | nil => intro b _ i le le' h _; simp at h
  | cons hd rest ih =>
    intro b hok i le le' h h'
    simp only [cumOkB, Bool.and_eq_true, beq_iff_eq] at hok
    obtain ⟨hcum, hrest⟩ := hok
    cases i with
    | zero =>
      simp only [List.getElem?_cons_zero, Option.some.injEq] at h
      subst h
      simp only [List.getElem?_cons_succ] at h'
      have := cumOk_zero rest (b + hd.height) hrest le' h'
      omega
    | succ i' =>
      simp only [List.getElem?_cons_succ] at h h'
      exact ih (b + hd.height) hrest i' le le' h h'

theorem cumOk_last :
    ∀ (l : List LaidEntry) (b : Nat), cumOkB b l = true →
      ∀ le, l.getLast? = some le → endOff b l = le.cumY + le.height := by
  intro l
  induction l with
  | nil => intro b _ le h; simp at h
  | cons hd rest ih =>
    intro b hok le h
    simp only [cumOkB, Bool.and_eq_true, beq_iff_eq] at hok
    obtain ⟨hcum, hrest⟩ := hok
    cases rest with
    | nil =>
      simp only [List.getLast?_singleton, Option.some.injEq] at h
      subst h
      simp [endOff, hcum]
    | cons hd' rest' =>
      rw [List.getLast?_cons_cons] at h
      exact ih (b + hd.height) hrest le h

theorem LayoutOk_CumInvariant {s : ConversationViewState} (h : LayoutOk s) :
    CumInvariant s := by
  obtain ⟨hok, htot⟩ := h
  refine ⟨fun le h0 => cumOk_zero s.entries 0 hok le h0,
    fun i le le' hi hi' => cumOk_succ s.entries 0 hok i le le' hi hi', ?_⟩
  cases hlast : s.entries.getLast? with
  | none =>
    have : s.entries = [] := List.getLast?_eq_none_iff.mp hlast
    simp [htot, this, endOff]
  | some le =>
    rw [htot]
    exact cumOk_last s.entries 0 hok le hlast

theorem cum_index :
    ∀ (l : List LaidEntry) (b : Nat), cumOkB b l = true →
      ∀ i le, l[i]? = some le →
        le.cumY = b + sumH (l.take i) ∧
        le.cumY + le.height = b + sumH (l.take (i + 1)) := by
  intro l
  induction l with
  | nil => intro b _ i le h; simp at h
  | cons hd rest ih =>
    intro b hok i le h
    simp only [cumOkB, Bool.and_eq_true, beq_iff_eq] at hok
    obtain ⟨hcum, hrest⟩ := hok
    cases i with
    | zero =>
      simp only [List.getElem?_cons_zero, Option.some.injEq] at h
      subst h
      simp [sumH, hcum]
    | succ i' =>
      simp only [List.getElem?_cons_succ] at h
      have := ih (b + hd.height) hrest i' le h
      simp only [List.take_succ_cons, sumH, List.map_cons, List.sum_cons]
      simp only [sumH] at this
      omega

theorem exists_entry_at :
    ∀ (l : List LaidEntry) (b y : Nat), cumOkB b l = true → b ≤ y →
      y < endOff b l →
      ∃ (i : Nat) (le : LaidEntry),
        l[i]? = some le ∧ le.cumY ≤ y ∧ y < le.cumY + le.height := by
  intro l
  induction l with
  | nil =>
    intro b y _ hby hlt
    simp only [endOff] at hlt
    omega
  | cons hd rest ih =>
    intro b y hok hby hlt
    simp only [cumOkB, Bool.and_eq_true, beq_iff_eq] at hok
    obtain ⟨hcum, hrest⟩ := hok
    by_cases hin : y < b + hd.height
    · exact ⟨0, hd, List.getElem?_cons_zero, by omega, by omega⟩
    · push_neg at hin
      simp only [endOff] at hlt
      obtain ⟨i, le, hget, h1, h2⟩ := ih (b + hd.height) y hrest hin hlt
      refine ⟨i + 1, le, ?_, h1, h2⟩
      simp only [List.getElem?_cons_succ]
      exact hget

theorem findEntryAt_eq :
    ∀ (l : List LaidEntry) (b y j : Nat), cumOkB b l = true →
      ∀ (i : Nat) (le : LaidEntry), l[i]? = some le → le.cumY ≤ y →
        y < le.cumY + le.height → findEntryAt y j l = some (j + i, le) := by
  intro l
  induction l with
  | nil => intro b y j _ i le h _ _; simp at h
  | cons hd rest ih =>
    intro b y j hok i le h hle hlt
    simp only [cumOkB, Bool.and_eq_true, beq_iff_eq] at hok
    obtain ⟨hcum, hrest⟩ := hok
    have hidx := cum_index (hd :: rest) b (by
      simp only [cumOkB, Bool.and_eq_true, beq_iff_eq]
      exact ⟨hcum, hrest⟩) i le h
    cases i with
    | zero =>
      simp only [List.getElem?_cons_zero, Option.some.injEq] at h
      subst h
      simp [findEntryAt, hle, hlt]
    | succ i' =>
      -- the head's interval ends at or before this entry's start, so the head
      -- cannot contain y
      have hsum : hd.height ≤ sumH ((hd :: rest).take (i' + 1)) := by
        have h1 : sumH ((hd :: rest).take 1) ≤ sumH ((hd :: rest).take (i' + 1)) :=
          sumH_take_mono (hd :: rest) 1 (i' + 1) (by omega)
        simpa [sumH] using h1
      have hhd : ¬ (hd.cumY ≤ y ∧ y < hd.cumY + hd.height) := by
        rintro ⟨hc1, hc2⟩
        have hstart := hidx.1
        omega
      simp only [List.getElem?_cons_succ] at h
      have hrec := ih (b + hd.height) y (j + 1) hrest i' le h hle hlt
      have harith : j + 1 + i' = j + (i' + 1) := by omega
      simp only [findEntryAt, if_neg hhd]
      rw [hrec, harith]

theorem firstIdx_le_length (p : LaidEntry → Bool) :
    ∀ l : List LaidEntry, firstIdx p l ≤ l.length := by
  intro l
  induction l with
  | nil => simp [firstIdx]
  | cons hd rest ih =>
    simp only [firstIdx, List.length_cons]
    split
    · omega
    · omega

theorem firstIdx_le_of (p : LaidEntry → Bool) :
    ∀ (l : List LaidEntry) (i : Nat) (le : LaidEntry),
      l[i]? = some le → p le = true → firstIdx p l ≤ i := by
  intro l
  induction l with
  | nil => intro i le h _; simp at h
  | cons hd rest ih =>
    intro i le h hp
    cases i with
    | zero =>
      simp only [List.getElem?_cons_zero, Option.some.injEq] at h
      subst h
      simp [firstIdx, hp]
    | succ i' =>
      simp only [List.getElem?_cons_succ] at h
      by_cases hphd : p hd = true
      · simp only [firstIdx, if_pos hphd]
        omega
      · simp only [firstIdx, if_neg hphd]
        have := ih i' le h hp
        omega

theorem firstIdx_before (p : LaidEntry → Bool) :
    ∀ (l : List LaidEntry) (i : Nat) (le : LaidEntry),
      l[i]? = some le → i < firstIdx p l → p le = false := by
  intro l
  induction l with
  | nil => intro i le h _; simp at h
  | cons hd rest ih =>
    intro i le h hlt
    simp only [firstIdx] at hlt
    by_cases hp : p hd = true
    · rw [if_pos hp] at hlt
      exact absurd hlt (by omega)
    · cases i with
      | zero =>
        simp only [List.getElem?_cons_zero, Option.some.injEq] at h
        subst h
        exact Bool.eq_false_iff.mpr hp
      | succ i' =>
        simp only [List.getElem?_cons_succ] at h
        rw [if_neg hp] at hlt
        exact ih i' le h (by omega)

theorem firstIdx_found (p : LaidEntry → Bool) :
    ∀ l : List LaidEntry, firstIdx p l < l.length →
      ∃ le, l[firstIdx p l]? = some le ∧ p le = true := by
  intro l
  induction l with
  | nil => intro h; simp [firstIdx] at h
  | cons hd rest ih =>
    intro h
    by_cases hp : p hd = true
    · exact ⟨hd, by simp [firstIdx, hp], hp⟩
    · simp only [firstIdx, if_neg hp, List.length_cons] at h ⊢
      obtain ⟨le, hget, hple⟩ := ih (by omega)
      refine ⟨le, ?_, hple⟩
      simp only [List.getElem?_cons_succ]
      exact hget

theorem resolve_le_max (sp : ScrollPosition) (total vh : Nat)
    (cum : Nat → Nat) : sp.resolve total vh cum ≤ total - vh := by
  cases sp <;> simp [ScrollPosition.resolve]

theorem getElem?_set_self' :
    ∀ (l : List LaidEntry) (i : Nat) (a : LaidEntry), i < l.length →
      (l.set i a)[i]? = some a := by
  intro l
  induction l with
  | nil => intro i a h; simp at h
  | cons hd rest ih =>
    intro i a h
    cases i with
    | zero => simp
    | succ i' =>
      simp only [List.length_cons] at h
      simpa using ih i' a (by omega)

theorem mkLaidEntries_view_lines :
    ∀ (es : List ConversationEntry) (i : Nat) (le : LaidEntry),
      le ∈ mkLaidEntries es i → le.view.rendered_lines = [separatorLine] := by
  intro es
  induction es with
  | nil => intro i le h; simp [mkLaidEntries] at h
  | cons e rest ih =>
    intro i le h
    simp only [mkLaidEntries, List.mem_cons] at h
    rcases h with h | h
    · subst h; rfl
    · exact ih (i + 1) le h

theorem recompute_lines_len_pos (v : EntryView) (wm : WrapMode) (w : Nat) :
    1 ≤ (v.recompute_lines wm w).rendered_lines.length :=
  compute_entry_lines_length_pos v.entry v.expanded (v.effective_wrap wm) w
    COLLAPSE_THRESHOLD SUMMARY_LINES

theorem layoutFrom_mem_view (hf : HeightFn) (p : LayoutParams)
    {l : List LaidEntry} {b : Nat} {le : LaidEntry}
    (h : le ∈ (layoutFrom hf p b l).1) :
    ∃ le' ∈ l, le'.view = le.view := by
  have h1 : le.view ∈ ((layoutFrom hf p b l).1).map (·.view) :=
    List.mem_map_of_mem _ h
  rw [layoutFrom_views hf p l b] at h1
  obtain ⟨le', hmem, hv⟩ := List.mem_map.mp h1
  exact ⟨le', hmem, hv⟩

theorem viewsOk_recompute {s : ConversationViewState} (params : LayoutParams)
    (hf : HeightFn) (h : ViewsOk s) : ViewsOk (s.recompute_layout params hf) := by
  intro le hmem
  simp only [ConversationViewState.recompute_layout] at hmem
  obtain ⟨le', hmem', hv⟩ := layoutFrom_mem_view hf params hmem
  rw [← hv]
  exact h le' hmem'

theorem viewsOk_relayout {s : ConversationViewState} (k : Nat)
    (params : LayoutParams) (hf : HeightFn) (h : ViewsOk s) :
    ViewsOk (s.relayout_from k params hf) := by
  intro le hmem
  simp only [ConversationViewState.relayout_from, List.mem_append] at hmem
  rcases hmem with hmem | hmem
  · exact h le (List.take_subset k s.entries hmem)
  · obtain ⟨le', hmem', hv⟩ := layoutFrom_mem_view hf params hmem
    rw [← hv]
    exact h le' (List.drop_subset k s.entries hmem')

theorem viewsOk_set_recomputed {s : ConversationViewState} {k : Nat}
    {le0 : LaidEntry} (v : EntryView) (wm : WrapMode) (w : Nat)
    (h : ViewsOk s) :
    ViewsOk
      { s with
        entries := s.entries.set k
          ⟨v.recompute_lines wm w, le0.cumY, le0.height⟩ } := by
  intro le hmem
  simp only at hmem
  rcases List.mem_or_eq_of_mem_set hmem with hmem' | heq
  · exact h le hmem'
  · subst heq
    exact recompute_lines_len_pos v wm w

theorem viewsOk_toggle {s : ConversationViewState} (k : Nat)
    (params : LayoutParams) (hf : HeightFn) (h : ViewsOk s) :
    ViewsOk (s.toggle_expand k params hf).2 := by
  unfold ConversationViewState.toggle_expand
  cases hk : s.entries[k]? with
  | none => simpa using h
  | some le0 =>
    simp only
    exact viewsOk_relayout k params hf
      (viewsOk_set_recomputed _ params.globalWrap params.width h)

theorem viewsOk_setWrap {s : ConversationViewState} (k : Nat)
    (w : Option WrapMode) (params : LayoutParams) (hf : HeightFn)
    (h : ViewsOk s) : ViewsOk (s.set_wrap_override k w params hf).2 := by
  unfold ConversationViewState.set_wrap_override
  cases hk : s.entries[k]? with
  | none => simpa using h
  | some le0 =>
    simp only
    exact viewsOk_relayout k params hf
      (viewsOk_set_recomputed _ params.globalWrap params.width h)

theorem viewsOk_append {s : ConversationViewState}
    (es : List ConversationEntry) (h : ViewsOk s) : ViewsOk (s.append es) := by
  intro le hmem
  simp only [ConversationViewState.append, List.mem_append] at hmem
  rcases hmem with hmem | hmem
  · exact h le hmem
  · rw [mkLaidEntries_view_lines es s.entries.length le hmem]
    simp

theorem reachable_viewsOk {s : ConversationViewState} (h : Reachable s) :
    ViewsOk s := by
  induction h with
  | new es =>
    intro le hmem
    simp only [ConversationViewState.new] at hmem
    rw [mkLaidEntries_view_lines es 0 le hmem]
    simp
  | emptyState => intro le hmem; simp [ConversationViewState.emptyState] at hmem
  | recompute params hf _ ih => exact viewsOk_recompute params hf ih
  | relayout k params hf _ ih => exact viewsOk_relayout k params hf ih
  | toggle k params hf _ ih => exact viewsOk_toggle k params hf ih
  | setWrap k w params hf _ ih => exact viewsOk_setWrap k w params hf ih
  | append es _ ih => exact viewsOk_append es ih

theorem toggle_LayoutOk (s : ConversationViewState) (k : Nat)
    (params : LayoutParams) (hf : HeightFn) (h : LayoutOk s) :
    LayoutOk (s.toggle_expand k params hf).2 := by
  unfold ConversationViewState.toggle_expand
  cases hk : s.entries[k]? with
  | none => simpa using h
  | some le0 =>
    simp only
    apply relayout_from_LayoutOk
    constructor
    · rw [cumOkB_set_view s.entries k le0 _ 0 hk]
      exact h.1
    · rw [endOff_set_view s.entries k le0 _ 0 hk]
      exact h.2

theorem setWrap_LayoutOk (s : ConversationViewState) (k : Nat)
    (w : Option WrapMode) (params : LayoutParams) (hf : HeightFn)
    (h : LayoutOk s) : LayoutOk (s.set_wrap_override k w params hf).2 := by
  unfold ConversationViewState.set_wrap_override
  cases hk : s.entries[k]? with
  | none => simpa using h
  | some le0 =>
    simp only
    apply relayout_from_LayoutOk
    constructor
    · rw [cumOkB_set_view s.entries k le0 _ 0 hk]
      exact h.1
    · rw [endOff_set_view s.entries k le0 _ 0 hk]
      exact h.2

theorem sumH_take_le (l : List LaidEntry) (n : Nat) :
    sumH (l.take n) ≤ sumH l := by
  by_cases h : n ≤ l.length
  · have := sumH_take_mono l n l.length h
    rwa [List.take_length] at this
  · rw [List.take_of_length_le (by omega)]

theorem cumY_mono {l : List LaidEntry} (hok : cumOkB 0 l = true)
    {i j : Nat} {le le' : LaidEntry} (hij : i ≤ j) (hi : l[i]? = some le)
    (hj : l[j]? = some le') : le.cumY ≤ le'.cumY := by
  have h1 := (cum_index l 0 hok i le hi).1
  have h2 := (cum_index l 0 hok j le' hj).1
  have := sumH_take_mono l i j hij
  omega

theorem endY_mono {l : List LaidEntry} (hok : cumOkB 0 l = true)
    {i j : Nat} {le le' : LaidEntry} (hij : i ≤ j) (hi : l[i]? = some le)
    (hj : l[j]? = some le') :
    le.cumY + le.height ≤ le'.cumY + le'.height := by
  have h1 := (cum_index l 0 hok i le hi).2
  have h2 := (cum_index l 0 hok j le' hj).2
  have := sumH_take_mono l (i + 1) (j + 1) (by omega)
  omega

theorem relayout_views (s : ConversationViewState) (k : Nat)
    (params : LayoutParams) (hf : HeightFn) :
    (s.relayout_from k params hf).entries.map (·.view)
      = s.entries.map (·.view) := by
  simp only [ConversationViewState.relayout_from, List.map_append]
  rw [layoutFrom_views hf params]
  rw [← List.map_append, List.take_append_drop]

theorem take_append_same (l : List LaidEntry) (k : Nat) (ys : List LaidEntry)
    (hlen : ys.length = (l.drop k).length) :
    (l.take k ++ ys).take k = l.take k := by
  by_cases hk : k ≤ l.length
  · have hl : (l.take k).length = k := by
      simp [List.length_take]
      omega
    rw [List.take_append_of_le_length (by omega), List.take_take]
    simp
  · have hdrop : l.drop k = [] := List.drop_eq_nil_of_le (by omega)
    have hys : ys = [] := List.eq_nil_of_length_eq_zero (by simp [hlen, hdrop])
    subst hys
    simp

theorem getElem?_view_relayout (s : ConversationViewState) (k : Nat)
    (params : LayoutParams) (hf : HeightFn) (i : Nat) :
    ((s.relayout_from k params hf).entries[i]?).map (·.view)
      = (s.entries[i]?).map (·.view) := by
  have h := relayout_views s k params hf
  have h1 : ((s.relayout_from k params hf).entries.map (·.view))[i]?
      = (s.entries.map (·.view))[i]? := by rw [h]
  simpa [List.getElem?_map] using h1

theorem getElem?_lt_length {l : List LaidEntry} {i : Nat} {le : LaidEntry}
    (h : l[i]? = some le) : i < l.length := by
  by_contra hc
  rw [List.getElem?_eq_none (by omega)] at h
  cases h

theorem lt_stopIdx {l : List LaidEntry} (hok : cumOkB 0 l = true)
    (off vh : Nat) {i : Nat} {le : LaidEntry} (hget : l[i]? = some le)
    (hlt : le.cumY < off + vh) : i < firstIdx (stopPred off vh) l := by
  by_contra hc
  push_neg at hc
  have hstoplen : firstIdx (stopPred off vh) l < l.length :=
    Nat.lt_of_le_of_lt hc (getElem?_lt_length hget)
  obtain ⟨leq, hgetq, hq⟩ := firstIdx_found (stopPred off vh) l hstoplen
  have h1 : off + vh ≤ leq.cumY := of_decide_eq_true hq
  have h2 : leq.cumY ≤ le.cumY := cumY_mono hok hc hgetq hget
  omega

theorem startIdx_le {l : List LaidEntry} (off : Nat) {i : Nat}
    {le : LaidEntry} (hget : l[i]? = some le)
    (h : off < le.cumY + le.height) : firstIdx (startPred off) l ≤ i :=
  firstIdx_le_of (startPred off) l i le hget (decide_eq_true h)

theorem mem_of_getElem?Laid {l : List LaidEntry} {i : Nat} {le : LaidEntry}
    (h : l[i]? = some le) : le ∈ l := by
  induction l generalizing i with
  | nil => simp at h
  | cons hd tl ih =>
    cases i with
    | zero =>
      simp only [List.getElem?_cons_zero, Option.some.injEq] at h
      subst h
      exact List.mem_cons_self hd tl
    | succ i' =>
      simp only [List.getElem?_cons_succ] at h
      exact List.mem_cons_of_mem hd (ih h)

theorem visible_core (l : List LaidEntry) (off vh total : Nat)
    (hok : cumOkB 0 l = true) (htot : total = endOff 0 l)
    (hpos : ∀ le ∈ l, 1 ≤ le.height) (hoff : off ≤ total - vh) :
    (firstIdx (startPred off) l ≤ firstIdx (stopPred off vh) l
      ∧ firstIdx (stopPred off vh) l ≤ l.length)
    ∧ (∀ (i : Nat) (le : LaidEntry), l[i]? = some le →
        ((firstIdx (startPred off) l ≤ i ∧ i < firstIdx (stopPred off vh) l)
          ↔ (le.cumY < off + vh ∧ off < le.cumY + le.height)))
    ∧ (1 ≤ vh →
        ((firstIdx (startPred off) l = firstIdx (stopPred off vh) l) ↔ l = [])) := by
  have hstople := firstIdx_le_length (stopPred off vh) l
  have hstartstop : firstIdx (startPred off) l ≤ firstIdx (stopPred off vh) l := by
    by_cases hsl : firstIdx (stopPred off vh) l < l.length
    · obtain ⟨leq, hgetq, hq⟩ := firstIdx_found (stopPred off vh) l hsl
      have h1 : off + vh ≤ leq.cumY := of_decide_eq_true hq
      have hqh : 1 ≤ leq.height := hpos leq (mem_of_getElem?Laid hgetq)
      exact startIdx_le off hgetq (by omega)
    · have := firstIdx_le_length (startPred off) l
      omega
  have hmember : ∀ (i : Nat) (le : LaidEntry), l[i]? = some le →
      ((firstIdx (startPred off) l ≤ i ∧ i < firstIdx (stopPred off vh) l)
        ↔ (le.cumY < off + vh ∧ off < le.cumY + le.height)) := by
    intro i le hget
    constructor
    · rintro ⟨hsi, his⟩
      have hcub : le.cumY < off + vh := by
        have := firstIdx_before (stopPred off vh) l i le hget his
        have := of_decide_eq_false this
        omega
      refine ⟨hcub, ?_⟩
      have hilen : i < l.length := getElem?_lt_length hget
      have hstartlen : firstIdx (startPred off) l < l.length :=
        Nat.lt_of_le_of_lt hsi hilen
      obtain ⟨les, hgets, hps⟩ := firstIdx_found (startPred off) l hstartlen
      have h1 : off < les.cumY + les.height := of_decide_eq_true hps
      have h2 := endY_mono hok hsi hgets hget
      omega
    · rintro ⟨h1, h2⟩
      exact ⟨startIdx_le off hget h2, lt_stopIdx hok off vh hget h1⟩
  refine ⟨⟨hstartstop, hstople⟩, hmember, ?_⟩
  intro hvh
  constructor
  · intro heq
    by_contra hne
    cases l with
    | nil => exact hne rfl
    | cons hd tl =>
      have htotpos : 1 ≤ total := by
        have hhd : 1 ≤ hd.height := hpos hd (List.mem_cons_self hd tl)
        have := endOff_eq_sumH (hd :: tl) 0
        have hsum : hd.height ≤ sumH (hd :: tl) := by
          simp only [sumH, List.map_cons, List.sum_cons]
          omega
        omega
      have hofftot : off < total := by omega
      have hex := exists_entry_at (hd :: tl) 0 off hok (Nat.zero_le off)
        (by omega)
      obtain ⟨i, le, hget, hc1, hc2⟩ := hex
      have hs := startIdx_le off hget (by omega)
      have ht := lt_stopIdx hok off vh hget (by omega)
      omega
  · intro heq
    subst heq
    rfl

/-- C1: For every EntryView, in every reachable state of a
ConversationViewState (after construction, recompute_lines, toggle_expand,
set_wrap_override, append, or any relayout), `height()` equals the number of
lines returned by `rendered_lines()`, and that count is at least 1. -/
theorem C1_height_eq_rendered_lines (s : ConversationViewState)
    (hs : Reachable s) :
    ∀ le ∈ s.entries,
      le.view.height = le.view.rendered_lines.length ∧ 1 ≤ le.view.height := by
  intro le hmem
  exact ⟨rfl, reachable_viewsOk hs le hmem⟩

/-- Witness for C1 at a freshly constructed singleton conversation. -/
theorem C1_height_eq_rendered_lines_witness :
    exLaid0.view.height = exLaid0.view.rendered_lines.length
      ∧ 1 ≤ exLaid0.view.height :=
  C1_height_eq_rendered_lines (ConversationViewState.new [exMalformed])
    (Reachable.new [exMalformed]) exLaid0 (by decide)

/-- C2: after a layout pass — `recompute_layout` always, and `relayout_from`,
`toggle_expand` or `set_wrap_override` on a laid-out state — the cumulative
offsets satisfy `cumulative_y(0) = 0` and
`cumulative_y(i+1) = cumulative_y(i) + height(i)`, and `total_height` equals
the last entry's `cumulative_y + height` (0 when empty). -/
theorem C2_cumulative_invariant (s : ConversationViewState)
    (params : LayoutParams) (hf : HeightFn) (k : Nat) (w : Option WrapMode) :
    CumInvariant (s.recompute_layout params hf)
    ∧ (LayoutOk s → CumInvariant (s.relayout_from k params hf))
    ∧ (LayoutOk s → CumInvariant (s.toggle_expand k params hf).2)
    ∧ (LayoutOk s → CumInvariant (s.set_wrap_override k w params hf).2) :=
  ⟨LayoutOk_CumInvariant (recompute_layout_LayoutOk s params hf),
    fun h => LayoutOk_CumInvariant (relayout_from_LayoutOk s k params hf h),
    fun h => LayoutOk_CumInvariant (toggle_LayoutOk s k params hf h),
    fun h => LayoutOk_CumInvariant (setWrap_LayoutOk s k w params hf h)⟩

/-- Witness for C2: relayout from index 1 of a laid-out 3-entry conversation
keeps the cumulative invariant. -/
theorem C2_cumulative_invariant_witness :
    CumInvariant (exState3.relayout_from 1 exParams (constHeight 10)) :=
  (C2_cumulative_invariant exState3 exParams (constHeight 10) 1 none).2.1
    (by decide)

/-- C6: `ScrollPosition::resolve` returns 0 for Top,
`max(0, total − viewport)` for Bottom (on `Nat`: `total - viewport`), the
clamp of the offset into `[0, max(0, total − viewport)]` for AtLine,
`cumulative_y(entry) + line_in_entry` with the same clamp for AtEntry; every
result lies in `[0, max(0, total − viewport)]` (the lower bound is inherent
to `Nat`), and re-resolving an already-resolved AtLine with the same
parameters is a no-op. -/
theorem C6_resolve_spec (total vh : Nat) (cum : Nat → Nat) (off i l : Nat)
    (sp : ScrollPosition) :
    ScrollPosition.resolve .Top total vh cum = 0
    ∧ ScrollPosition.resolve .Bottom total vh cum = total - vh
    ∧ ScrollPosition.resolve (.AtLine off) total vh cum = min off (total - vh)
    ∧ ScrollPosition.resolve (.AtEntry i l) total vh cum
        = min (cum i + l) (total - vh)
    ∧ sp.resolve total vh cum ≤ total - vh
    ∧ ScrollPosition.resolve
        (.AtLine (ScrollPosition.resolve (.AtLine off) total vh cum))
        total vh cum
      = ScrollPosition.resolve (.AtLine off) total vh cum := by
  refine ⟨rfl, rfl, rfl, rfl, resolve_le_max sp total vh cum, ?_⟩
  simp only [ScrollPosition.resolve]
  omega

/-- C10: the scroll handler never underflows the offset: ScrollUp/PageUp leave
Top at Top and subtract from AtLine with saturating (Nat) subtraction, so the
offset never drops below 0; ScrollDown/PageDown leave Bottom at Bottom. -/
theorem C10_scroll_no_underflow (total vh : Nat) (cum : Nat → Nat)
    (off : Nat) :
    scroll_step .ScrollUp .Top total vh cum = some .Top
    ∧ scroll_step .PageUp .Top total vh cum = some .Top
    ∧ scroll_step .ScrollUp (.AtLine off) total vh cum
        = some (.AtLine (off - 1))
    ∧ scroll_step .PageUp (.AtLine off) total vh cum
        = some (.AtLine (off - vh))
    ∧ off - 1 ≤ off ∧ off - vh ≤ off
    ∧ scroll_step .ScrollDown .Bottom total vh cum = some .Bottom
    ∧ scroll_step .PageDown .Bottom total vh cum = some .Bottom :=
  ⟨rfl, rfl, rfl, rfl, by omega, by omega, rfl, rfl⟩

/-- C3: for every laid-out entry sequence and every index `k`, after a height
change confined to indices ≥ k (entries before `k` still have their recorded
heights), `relayout_from(k)` produces cumulative offsets and total height
identical to a full `recompute_layout` from scratch, and entries before `k`
keep their previous cumulative offsets untouched. -/
theorem C3_relayout_from_equiv_full (s : ConversationViewState) (k : Nat)
    (params : LayoutParams) (hf : HeightFn) (hok : LayoutOk s)
    (hpre : ∀ le ∈ s.entries.take k,
      le.height = entryHeight hf params le.view) :
    (s.relayout_from k params hf).entries.map (·.cumY)
        = (s.recompute_layout params hf).entries.map (·.cumY)
    ∧ (s.relayout_from k params hf).total_height
        = (s.recompute_layout params hf).total_height
    ∧ (s.relayout_from k params hf).entries.take k = s.entries.take k := by
  have h1 : cumOkB 0 (s.entries.take k) = true ∧
      cumOkB (endOff 0 (s.entries.take k)) (s.entries.drop k) = true := by
    have h := hok.1
    rw [← List.take_append_drop k s.entries, cumOkB_append,
      Bool.and_eq_true] at h
    exact h
  have hfix : layoutFrom hf params 0 (s.entries.take k)
      = (s.entries.take k, endOff 0 (s.entries.take k)) :=
    layoutFrom_fixed hf params (s.entries.take k) 0 h1.1 hpre
  have hpe : prefixEnd (s.entries.take k) = endOff 0 (s.entries.take k) :=
    prefixEnd_eq h1.1
  have hLF : layoutFrom hf params 0 s.entries
      = (s.entries.take k ++
          (layoutFrom hf params (endOff 0 (s.entries.take k))
            (s.entries.drop k)).1,
        (layoutFrom hf params (endOff 0 (s.entries.take k))
          (s.entries.drop k)).2) := by
    conv_lhs => rw [← List.take_append_drop k s.entries]
    rw [layoutFrom_append, hfix]
  have hrel_entries : (s.relayout_from k params hf).entries
      = s.entries.take k ++
        (layoutFrom hf params (endOff 0 (s.entries.take k))
          (s.entries.drop k)).1 := by
    simp only [ConversationViewState.relayout_from, hpe]
  have hrel_total : (s.relayout_from k params hf).total_height
      = (layoutFrom hf params (endOff 0 (s.entries.take k))
          (s.entries.drop k)).2 := by
    simp only [ConversationViewState.relayout_from, hpe]
  have hrc_entries : (s.recompute_layout params hf).entries
      = s.entries.take k ++
        (layoutFrom hf params (endOff 0 (s.entries.take k))
          (s.entries.drop k)).1 := by
    simp only [ConversationViewState.recompute_layout]
    rw [hLF]
  have hrc_total : (s.recompute_layout params hf).total_height
      = (layoutFrom hf params (endOff 0 (s.entries.take k))
          (s.entries.drop k)).2 := by
    simp only [ConversationViewState.recompute_layout]
    rw [hLF]
  refine ⟨?_, ?_, ?_⟩
  · rw [hrel_entries, hrc_entries]
  · rw [hrel_total, hrc_total]
  · rw [hrel_entries]
    exact take_append_same s.entries k _
      (layoutFrom_length hf params (s.entries.drop k) _)

/-- Witness for C3 at a laid-out 3-entry conversation, relayouting from 1. -/
theorem C3_relayout_from_equiv_full_witness :
    (exState3.relayout_from 1 exParams (constHeight 10)).entries.take 1
      = exState3.entries.take 1 :=
  (C3_relayout_from_equiv_full exState3 1 exParams (constHeight 10)
    (by decide) (by decide)).2.2

/-- C8: for every laid-out ConversationViewState, `hit_test` returns the `Hit`
of exactly the entry whose `[cumulative_y, cumulative_y + height)` interval
contains `absolute_y = scroll_offset + screen_y`, with
`line_in_entry = absolute_y − cumulative_y` and the column passed through
unchecked; and it returns `Miss` whenever `absolute_y` is beyond the total
height. -/
theorem C8_hit_test_spec (s : ConversationViewState) (hok : LayoutOk s)
    (screen_y screen_x scroll_offset : Nat) :
    (∀ (i : Nat) (le : LaidEntry), s.entries[i]? = some le →
        le.cumY ≤ scroll_offset + screen_y →
        scroll_offset + screen_y < le.cumY + le.height →
        s.hit_test screen_y screen_x scroll_offset
          = .Hit i (scroll_offset + screen_y - le.cumY) screen_x)
    ∧ (s.total_height ≤ scroll_offset + screen_y →
        s.hit_test screen_y screen_x scroll_offset = .Miss) := by
  constructor
  · intro i le hget hle hlt
    have hidx := cum_index s.entries 0 hok.1 i le hget
    have htk := sumH_take_le s.entries (i + 1)
    have hsum := endOff_eq_sumH s.entries 0
    have htot : scroll_offset + screen_y < s.total_height := by
      rw [hok.2]
      omega
    have hfind := findEntryAt_eq s.entries 0 (scroll_offset + screen_y) 0
      hok.1 i le hget hle hlt
    simp only [ConversationViewState.hit_test]
    rw [if_neg (by omega), hfind]
    simp
  · intro h
    simp only [ConversationViewState.hit_test]
    rw [if_pos h]

/-- Witness for C8: clicking at screen row 5 with scroll offset 10 in the
3×10-line conversation hits entry 1 at line 5, column 20 (the tests'
`hit_test_finds_second_entry_with_scroll` scenario). -/
theorem C8_hit_test_spec_witness :
    exState3.hit_test 5 20 10
      = HitTestResult.Hit 1
          (10 + 5 - (⟨EntryView.new (exValid "uuid-2") 1, 10, 10⟩ : LaidEntry).cumY)
          20 :=
  (C8_hit_test_spec exState3 (by decide) 5 20 10).1 1
    ⟨EntryView.new (exValid "uuid-2") 1, 10, 10⟩ (by decide) (by decide)
    (by decide)

/-- C9: `toggle_expand` with an index at or past the entry count returns
`none` and leaves the state unchanged; with an in-bounds index it flips that
entry's expanded flag, recomputes the entry's lines, and relayouts from that
index as one inseparable operation, returning `some` of the new expanded
state (the negation of the previous flag). -/
theorem C9_toggle_expand_spec (s : ConversationViewState) (index : Nat)
    (params : LayoutParams) (hf : HeightFn) :
    (s.entries.length ≤ index → s.toggle_expand index params hf = (none, s))
    ∧ (∀ le, s.entries[index]? = some le →
        (s.toggle_expand index params hf).1 = some (!le.view.expanded)
        ∧ (s.toggle_expand index params hf).2
            = ({ s with
                  entries := s.entries.set index
                    ⟨({ le.view with expanded := !le.view.expanded
                        }).recompute_lines params.globalWrap params.width,
                      le.cumY, le.height⟩ } : ConversationViewState
                ).relayout_from index params hf
        ∧ ((s.toggle_expand index params hf).2.entries[index]?).map
              (fun le' => le'.view.expanded) = some (!le.view.expanded)) := by
  constructor
  · intro h
    have hnone : s.entries[index]? = none := List.getElem?_eq_none h
    simp [ConversationViewState.toggle_expand, hnone]
  · intro le hget
    have hlt : index < s.entries.length := by
      by_contra hc
      rw [List.getElem?_eq_none (by omega)] at hget
      cases hget
    have htog : s.toggle_expand index params hf
        = (some (({ le.view with expanded := !le.view.expanded
              }).recompute_lines params.globalWrap params.width).expanded,
            ({ s with
                entries := s.entries.set index
                  ⟨({ le.view with expanded := !le.view.expanded
                      }).recompute_lines params.globalWrap params.width,
                    le.cumY, le.height⟩ } : ConversationViewState
              ).relayout_from index params hf) := by
      simp only [ConversationViewState.toggle_expand, hget]
    have hexp : (({ le.view with expanded := !le.view.expanded
        }).recompute_lines params.globalWrap params.width).expanded
        = !le.view.expanded := rfl
    refine ⟨?_, ?_, ?_⟩
    · rw [htog, hexp]
    · rw [htog]
    · rw [htog]
      have hset : (s.entries.set index
          ⟨({ le.view with expanded := !le.view.expanded
              }).recompute_lines params.globalWrap params.width,
            le.cumY, le.height⟩)[index]?
          = some ⟨({ le.view with expanded := !le.view.expanded
              }).recompute_lines params.globalWrap params.width,
            le.cumY, le.height⟩ :=
        getElem?_set_self' s.entries index _ hlt
      have hview := getElem?_view_relayout
        ({ s with
            entries := s.entries.set index
              ⟨({ le.view with expanded := !le.view.expanded
                  }).recompute_lines params.globalWrap params.width,
                le.cumY, le.height⟩ } : ConversationViewState)
        index params hf index
      simp only at hview
      rw [hset] at hview
      have hcomp : ∀ (o : Option LaidEntry),
          o.map (fun le' => le'.view.expanded) = (o.map (·.view)).map (·.expanded) := by
        intro o
        cases o <;> rfl
      rw [hcomp, hview]
      rfl

/-- Witness for C9: toggling index 5 of a 3-entry conversation returns `none`
and leaves the state unchanged. -/
theorem C9_toggle_expand_spec_witness :
    exState3.toggle_expand 5 exParams (constHeight 10) = (none, exState3) :=
  (C9_toggle_expand_spec exState3 5 exParams (constHeight 10)).1 (by decide)

/-- C7 (amended): for every laid-out ConversationViewState with positive entry
heights and every viewport of height at least 1, `visible_range` returns a
range with `start_index ≤ end_index ≤ number of entries`, consisting exactly
of the entries whose `[cumulative_y, cumulative_y + height)` interval
intersects `[scroll_offset, scroll_offset + viewport_height)`; and when the
viewport height is at least 1, the range is empty iff the conversation is
empty.  (With a zero-height viewport the range is empty even for a nonempty
conversation — see the counterexample.) -/
theorem C7_visible_range_spec (s : ConversationViewState)
    (vp : ViewportDimensions) (hok : LayoutOk s) (hpos : HeightsPos s) :
    ((s.visible_range vp).start_index ≤ (s.visible_range vp).end_index
      ∧ (s.visible_range vp).end_index ≤ s.entries.length)
    ∧ (∀ (i : Nat) (le : LaidEntry), s.entries[i]? = some le →
        (((s.visible_range vp).start_index ≤ i
            ∧ i < (s.visible_range vp).end_index)
          ↔ (le.cumY < (s.visible_range vp).scroll_offset + vp.height
              ∧ (s.visible_range vp).scroll_offset < le.cumY + le.height)))
    ∧ (1 ≤ vp.height →
        (((s.visible_range vp).start_index = (s.visible_range vp).end_index)
          ↔ s.entries = [])) := by
  have hoff : s.scroll.resolve s.total_height vp.height (cumLookup s)
      ≤ s.total_height - vp.height :=
    resolve_le_max s.scroll s.total_height vp.height (cumLookup s)
  have hcore := visible_core s.entries
    (s.scroll.resolve s.total_height vp.height (cumLookup s)) vp.height
    s.total_height hok.1 hok.2 hpos hoff
  exact hcore

/-- C7 counterexample: with a zero-height viewport, a laid-out nonempty
conversation yields an empty visible range, refuting "the range is empty if
and only if the conversation is empty" as universally stated over all
viewports. -/
theorem C7_visible_range_counterexample :
    (exState1.visible_range ⟨80, 0⟩).start_index
        = (exState1.visible_range ⟨80, 0⟩).end_index
    ∧ exState1.entries ≠ [] := by decide

/-- Witness for C7 at the 3×10-line conversation with a 24-line viewport. -/
theorem C7_visible_range_spec_witness :
    ((exState3.visible_range ⟨80, 24⟩).start_index
        = (exState3.visible_range ⟨80, 24⟩).end_index)
      ↔ exState3.entries = [] :=
  (C7_visible_range_spec exState3 ⟨80, 24⟩ (by decide) (by decide)).2.2
    (by decide)

/-- C4: `compute_entry_lines` computes the full candidate line count with one
entry-wide policy; when not expanded and the count exceeds
`collapse_threshold` it emits exactly the first `summary_lines` lines, one
"(+N more lines)" indicator with `N = candidates − summary_lines`, then one
separator; otherwise every candidate line plus the separator.  In particular
an entry with 100 candidate lines, threshold 10 and 3 summary lines renders
5 lines collapsed and 101 lines expanded. -/
theorem C4_collapse_policy (uuid : String) (blocks : List ContentBlock)
    (wrap : WrapMode) (width t sl : Nat) :
    (t < (candidate_lines blocks wrap width).length →
      compute_entry_lines (.Valid uuid blocks) false wrap width t sl
        = (candidate_lines blocks wrap width).take sl
          ++ [indicatorLine ((candidate_lines blocks wrap width).length - sl),
              separatorLine])
    ∧ ((candidate_lines blocks wrap width).length ≤ t →
      compute_entry_lines (.Valid uuid blocks) false wrap width t sl
        = candidate_lines blocks wrap width ++ [separatorLine])
    ∧ compute_entry_lines (.Valid uuid blocks) true wrap width t sl
        = candidate_lines blocks wrap width ++ [separatorLine]
    ∧ (compute_entry_lines exEntry100 false .Wrap 80 10 3).length = 5
    ∧ (compute_entry_lines exEntry100 true .Wrap 80 10 3).length = 101 := by
  refine ⟨?_, ?_, ?_, by decide, by decide⟩
  · intro h
    simp only [compute_entry_lines]
    rw [if_pos ⟨trivial, h⟩]
  · intro h
    simp only [compute_entry_lines]
    rw [if_neg (fun hc => absurd hc.2 (by omega))]
  · simp only [compute_entry_lines]
    rw [if_neg (fun hc => by cases hc.1)]

/-- Witness for C4: the 100-line thinking entry collapses to the first 3
candidate lines, the indicator and the separator. -/
theorem C4_collapse_policy_witness :
    compute_entry_lines
        (.Valid "thinking-uuid" [ContentBlock.thinking (List.replicate 100 "ln")])
        false .Wrap 80 10 3
      = (candidate_lines [ContentBlock.thinking (List.replicate 100 "ln")]
            .Wrap 80).take 3
        ++ [indicatorLine
              ((candidate_lines [ContentBlock.thinking (List.replicate 100 "ln")]
                  .Wrap 80).length - 3),
            separatorLine] :=
  (C4_collapse_policy "thinking-uuid"
    [ContentBlock.thinking (List.replicate 100 "ln")] .Wrap 80 10 3).1
    (by decide)

/-- C5: in wrap mode every candidate line longer than the usable content width
(`width - 2`) is split into `ceil(length / content_width)` physical lines
before the collapse threshold is evaluated (the collapse test compares the
wrapped candidate count), while in no-wrap mode a long line remains a single
line for display and counting; a 100-character line at viewport width 40
(content width 38) becomes 3 physical lines. -/
theorem C5_wrap_before_threshold (uuid : String) (blocks : List ContentBlock)
    (width t sl cw : Nat) (l : List Char) (hcw : 0 < cw)
    (hlong : cw < l.length) :
    (chunkLine cw l).length = ceilDivNat l.length cw
    ∧ candidate_lines blocks .NoWrap width
        = blocks.flatMap ContentBlock.blockLines
    ∧ (compute_entry_lines (.Valid uuid blocks) false .Wrap width t sl).length
        = (if t < (candidate_lines blocks .Wrap width).length
            then min sl (candidate_lines blocks .Wrap width).length + 2
            else (candidate_lines blocks .Wrap width).length + 1)
    ∧ (candidate_lines [ContentBlock.text [exLongLine]] .Wrap 40).length = 3
    ∧ (candidate_lines [ContentBlock.text [exLongLine]] .NoWrap 40).length = 1
    ∧ (compute_entry_lines exEntryLong true .Wrap 40 10 3).length = 4
    ∧ (compute_entry_lines exEntryLong true .NoWrap 40 10 3).length = 2 := by
  refine ⟨chunkLine_length hcw hlong, rfl, ?_, by decide, by decide, by decide,
    by decide⟩
  simp only [compute_entry_lines]
  by_cases h : t < (candidate_lines blocks .Wrap width).length
  · rw [if_pos ⟨trivial, h⟩, if_pos h]
    simp [List.length_take]
  · rw [if_neg (fun hc => absurd hc.2 h), if_neg h]
    simp

/-- Witness for C5: the 100-character line at content width 38 splits into
`ceil(100/38) = 3` physical lines. -/
theorem C5_wrap_before_threshold_witness :
    (chunkLine 38 exLongLine.data).length = ceilDivNat exLongLine.data.length 38 :=
  (C5_wrap_before_threshold "long" [] 40 10 3 38 exLongLine.data (by decide)
    (by decide)).1

end Cclv
